import Mathlib

/-!
Verification of the dimensionality-reduction core of `napari-clusters-plotter`
(`napari_clusters_plotter/_dimensionality_reduction.py`).

The embedding below models:
  * column names as lists of characters (Python strings);
  * the measurement table as an ordered association list of named columns;
  * a feature matrix as a list of columns of real numbers;
  * the reduction functions `umap`, `tsne`, `pca` (the sklearn / umap-learn
    fitting routines themselves are external library calls and are taken as
    parameters; the repository's surrounding logic — standard scaling,
    component-count policy, NaN guarding, result merging, dispatch — is
    translated from the source);
  * the widget-level orchestration (`run_clicked`, `run`,
    `return_func_dim_reduction`) and its worker lifecycle.

Helpers such as `catch_NaNs`, `add_column_to_layer_tabular_data` and
`StandardScaler` live outside the provided source file; those are modelled
from the specification text and are marked as such in their doc comments.
-/

namespace NCP

/-- Column names (Python strings) are modelled as lists of characters. -/
abbrev Name := List Char

/-! ### Decimal rendering of natural numbers (Python `str(i)`)

Python builds output column names as `"PC_" + str(i)` etc.  `str(i)` is
modelled by Lean's own decimal rendering `Nat.toDigits 10 i`.  We prove that
this rendering is injective by exhibiting a left inverse that reads the
decimal digits back. -/

/-- Numeric value of a decimal digit character. -/
def charVal (c : Char) : ℕ := c.toNat - 48

/-- Read a list of decimal digit characters back into a number
(most significant digit first). -/
def readDigits (l : List Char) : ℕ := l.foldl (fun a c => 10 * a + charVal c) 0

theorem charVal_digitChar {r : ℕ} (h : r < 10) : charVal (Nat.digitChar r) = r := by
  interval_cases r <;> rfl

theorem readDigits_append (l₁ l₂ : List Char) :
    readDigits (l₁ ++ l₂) = l₂.foldl (fun a c => 10 * a + charVal c) (readDigits l₁) := by
  simp [readDigits, List.foldl_append]

theorem toDigitsCore_append (b fuel n : ℕ) (ds : List Char) :
    Nat.toDigitsCore b fuel n ds = Nat.toDigitsCore b fuel n [] ++ ds := by
  induction fuel generalizing n ds with
  | zero => simp [Nat.toDigitsCore]
  | succ fuel ih =>
    simp only [Nat.toDigitsCore]
    by_cases h : n / b = 0
    · simp [h]
    · simp only [h, if_false]
      rw [ih (n / b) (Nat.digitChar (n % b) :: ds), ih (n / b) [Nat.digitChar (n % b)]]
      simp

theorem readDigits_toDigitsCore (fuel n : ℕ) (h : n < 10 ^ fuel) :
    readDigits (Nat.toDigitsCore 10 fuel n []) = n := by
  induction fuel generalizing n with
  | zero =>
    interval_cases n
    rfl
  | succ fuel ih =>
    simp only [Nat.toDigitsCore]
    by_cases h0 : n / 10 = 0
    · have hn : n < 10 := by omega
      have hmod : n % 10 = n := Nat.mod_eq_of_lt hn
      simp [h0, readDigits, hmod, charVal_digitChar hn]
    · simp only [h0, if_false]
      rw [toDigitsCore_append]
      have hdiv : n / 10 < 10 ^ fuel := by
        rw [Nat.div_lt_iff_lt_mul (by norm_num)]
        calc n < 10 ^ (fuel + 1) := h
        _ = 10 ^ fuel * 10 := by ring
      rw [readDigits_append, ih (n / 10) hdiv]
      simp only [List.foldl_cons, List.foldl_nil,
        charVal_digitChar (Nat.mod_lt n (by norm_num) : n % 10 < 10)]
      omega

theorem readDigits_toDigits (n : ℕ) : readDigits (Nat.toDigits 10 n) = n := by
  have : n < 10 ^ (n + 1) :=
    lt_of_lt_of_le (Nat.lt_pow_self (by norm_num) n)
      (Nat.pow_le_pow_right (by norm_num) (Nat.le_succ n))
  exact readDigits_toDigitsCore (n + 1) n this

theorem toDigits_injective {m n : ℕ} (h : Nat.toDigits 10 m = Nat.toDigits 10 n) : m = n := by
  have := congrArg readDigits h
  rwa [readDigits_toDigits, readDigits_toDigits] at this

/-! ### Prefix testing (Python `str.startswith`) -/

theorem isPrefixOf_append_self (p l : Name) : p.isPrefixOf (p ++ l) = true := by
  induction p with
  | nil => simp
  | cons c p ih => simp [List.isPrefixOf_cons₂, ih]

/-! ### The measurement table

A pandas dataframe of named numeric columns, modelled as an ordered
association list from names to columns of (exact) real values.  A feature
matrix is a list of columns. -/

/-- One table: ordered list of (column name, column values). -/
abbrev Table := List (Name × List ℝ)

/-- Feature matrix: list of columns, each a list of real values. -/
abbrev Matrix := List (List ℝ)

/-- Algorithm tags, the first component of a reduction result
(`"UMAP"`, `"t-SNE"`, `"PCA"` in the source). -/
def umapTag : Name := ['U', 'M', 'A', 'P']

def tsneTag : Name := ['t', '-', 'S', 'N', 'E']

def pcaTag : Name := ['P', 'C', 'A']

/-- The column-name marker `"PC_"` used by `return_func_dim_reduction` to
recognise previously written PCA columns (`column.startswith("PC_")`). -/
def pcMark : Name := ['P', 'C', '_']

/-- Name of the `i`-th PCA output column, `"PC_" + str(i)` in the source. -/
def pcName (i : ℕ) : Name := pcMark ++ Nat.toDigits 10 i

/-- Name of the `i`-th UMAP / t-SNE output column,
`result[0] + "_" + str(i)` in the source. -/
def algColName (tag : Name) (i : ℕ) : Name := tag ++ '_' :: Nat.toDigits 10 i

/-- Column lookup by name (pandas column access). -/
def lookupCol (n : Name) : Table → Option (List ℝ)
  | [] => none
  | c :: t => if c.1 = n then some c.2 else lookupCol n t

/-- Modelled from the spec: `add_column_to_layer_tabular_data` (defined in
`_utilities.py`, outside the provided source) — a "column-level add/remove
primitive" that "appends/overwrites" the named column of the measurement
table. -/
def addColumn (t : Table) (n : Name) (v : List ℝ) : Table :=
  if t.any (fun c => c.1 = n) then t.map (fun c => if c.1 = n then (n, v) else c)
  else t ++ [(n, v)]

/-- Removal of all columns whose name starts with `"PC_"`, as done by
`return_func_dim_reduction` before writing a new PCA result
(`dropkeys = [column for column in tabular_data.keys() if
column.startswith("PC_")]` followed by `drop`). -/
def dropPCColumns (t : Table) : Table :=
  t.filter (fun c => ¬ pcMark.isPrefixOf c.1)

/-- The merge callback `return_func_dim_reduction`.  `result` is the pair
(algorithm tag, embedding matrix as list of columns); the returned boolean
records whether `show_table` was called (i.e. whether a completion
notification was produced).  For a PCA result the stale `PC_*` columns are
dropped first and one column per result column is written; for UMAP / t-SNE
exactly `n_components` columns are written; any other tag falls into the
source's silent `else` branch (a bare string expression and `return`). -/
def mergeResult (n_components : ℕ) (t : Table) (result : Name × Matrix) : Table × Bool :=
  if result.1 = pcaTag then
    let t' := dropPCColumns t
    ((List.range result.2.length).foldl
      (fun acc i => addColumn acc (pcName i) (result.2.getD i [])) t', true)
  else if result.1 = umapTag ∨ result.1 = tsneTag then
    ((List.range n_components).foldl
      (fun acc i => addColumn acc (algColName result.1 i) (result.2.getD i [])) t, true)
  else (t, false)

/-! ### Standardization

Modelled from the spec: `StandardScaler().fit_transform` is an external
sklearn call; the spec describes it as replacing each column with
`(x - mean) / std` using population statistics computed independently per
column, with a safe fallback for zero-variance columns (the scale falls back
to 1, leaving such a column at zero) instead of a division by zero. -/

/-- Population mean of a column. -/
noncomputable def mean (c : List ℝ) : ℝ := c.sum / c.length

/-- Population variance of a column. -/
noncomputable def popVar (c : List ℝ) : ℝ :=
  (c.map (fun x => (x - mean c) ^ 2)).sum / c.length

/-- Population standard deviation of a column. -/
noncomputable def popStd (c : List ℝ) : ℝ := Real.sqrt (popVar c)

/-- Modelled from the spec: the divisor actually used, with the safe
fallback to 1 for a zero-variance column. -/
noncomputable def scaleOf (c : List ℝ) : ℝ := if popStd c = 0 then 1 else popStd c

/-- Standardization of a single column: `(x - mean) / std`. -/
noncomputable def standardizeCol (c : List ℝ) : List ℝ :=
  c.map (fun x => (x - mean c) / scaleOf c)

/-- Standardization of a feature matrix, each column independently. -/
noncomputable def standardizeM (X : Matrix) : Matrix := X.map standardizeCol

/-! ### The PCA component policy

The sklearn `PCA` decomposition itself is an external library call and is
taken as a parameter `fit : ℕ → Matrix → Matrix × List ℝ`: `fit k X` stands
for `PCA(n_components=k).fit_transform(X)` paired with the fitted object's
`explained_variance_ratio_`, the transformed matrix given as a list of
component columns in the decomposition's decreasing-explained-variance
order; `fit 0 X` stands for `PCA()` with no component limit (the full
decomposition).  Everything around the call is translated from the source
function `pca`. -/

/-- First index of the list whose entry is `≥ t` — the
`for i, j in enumerate(cumulative_expl_var): if j >= threshold: ... break`
loop of the source.  `none` models the case in which the loop never breaks
and `pca_cum_var_idx` is left unbound (a `NameError` in Python). -/
noncomputable def firstIdxGe (t : ℝ) : List ℝ → Option ℕ
  | [] => none
  | x :: xs => if t ≤ x then some 0 else (firstIdxGe t xs).map (· + 1)

/-- Body of the source function `pca` (inside the NaN guard): choose
`PCA()` or `PCA(n_components=...)`, scale the input, fit, and for
`n_components == 0` keep the smallest prefix of components whose cumulative
explained-variance ratio reaches `explained_variance_threshold / 100`. -/
noncomputable def pcaBody (fit : ℕ → Matrix → Matrix × List ℝ) (reg_props : Matrix)
    (explained_variance_threshold : ℝ) (n_components : ℕ) : Option (Name × Matrix) :=
  let k := if n_components = 0 ∨ reg_props.length < n_components then 0 else n_components
  let scaled := standardizeM reg_props
  let fitted := fit k scaled
  if n_components = 0 then
    let explained_variance := fitted.2
    let cumulative_expl_var := (List.range explained_variance.length).map
      (fun i => (explained_variance.take (i + 1)).sum)
    match firstIdxGe (explained_variance_threshold / 100) cumulative_expl_var with
    | none => none
    | some i => some (pcaTag, fitted.1.take (i + 1))
  else some (pcaTag, fitted.1)

/-! ### The NaN guard

Modelled from the spec: the decorator `catch_NaNs` (defined in
`_utilities.py`, outside the provided source) scans the feature matrix for
any missing/NaN value and, if one is found, fails with a validation error
("input contains missing values") without ever invoking the wrapped
function.  A possibly-missing value is modelled as `Option ℝ` with `none`
playing the role of NaN. -/

/-- Errors surfaced by the core (spec §7 taxonomy). -/
inductive RunError where
  | validationError : RunError
  deriving DecidableEq

/-- A feature matrix whose entries may be missing (NaN). -/
abbrev OptMatrix := List (List (Option ℝ))

/-- Does the matrix contain a NaN entry anywhere? -/
def hasNaN (X : OptMatrix) : Bool := X.any (fun col => col.any (fun v => v.isNone))

/-- The matrix with all (absent) NaN markers stripped; only applied to
matrices that contain no NaN. -/
def stripNaN (X : OptMatrix) : Matrix := X.map (fun col => col.map (fun v => v.getD 0))

/-- Modelled from the spec: the `catch_NaNs` decorator. -/
def catchNaNs {α : Type} (f : Matrix → α) (X : OptMatrix) : Except RunError α :=
  if hasNaN X then .error .validationError else .ok (f (stripNaN X))

/-- The source function `umap` (NaN guard around the umap-learn call, whose
fitting routine is the external parameter `core`, taking `n_neigh` and
`n_components`). -/
def umap (core : ℕ → ℕ → Matrix → Matrix) (reg_props : OptMatrix)
    (n_neigh n_components : ℕ) : Except RunError (Name × Matrix) :=
  catchNaNs (fun M => (umapTag, core n_neigh n_components M)) reg_props

/-- The source function `tsne` (NaN guard around the sklearn TSNE call,
whose fitting routine is the external parameter `core`, taking `perplexity`
and `n_components`). -/
def tsne (core : ℝ → ℕ → Matrix → Matrix) (reg_props : OptMatrix)
    (perplexity : ℝ) (n_components : ℕ) : Except RunError (Name × Matrix) :=
  catchNaNs (fun M => (tsneTag, core perplexity n_components M)) reg_props

/-- The source function `pca`: the NaN guard around `pcaBody`. -/
noncomputable def pca (fit : ℕ → Matrix → Matrix × List ℝ) (reg_props : OptMatrix)
    (explained_variance_threshold : ℝ) (n_components : ℕ) :
    Except RunError (Option (Name × Matrix)) :=
  catchNaNs (fun M => pcaBody fit M explained_variance_threshold n_components) reg_props

/-! ### The run orchestrator

`DimensionalityReductionWidget.run` selects the requested columns, applies
the optional standard scaling, and dispatches one background worker
according to the selected algorithm; the `if/elif` chain has no `else`, so
an unrecognized algorithm name dispatches nothing. -/

/-- The background worker created by `run`: which reduction function is
started and with which arguments (`create_worker(...)` in the source). -/
inductive WorkerSpec where
  | umapW (props : Matrix) (n_neigh n_components : ℕ)
  | tsneW (props : Matrix) (perplexity : ℝ) (n_components : ℕ)
  | pcaW (props : Matrix) (explained_variance_threshold : ℝ) (n_components : ℕ)

/-- Column selection `features[selected_measurements_list]`: the requested
columns, in the requested order. -/
def selectColumns (t : Table) (ns : List Name) : Matrix :=
  ns.map (fun n => (lookupCol n t).getD [])

/-- The synchronous part of `DimensionalityReductionWidget.run`: column
selection, the optional top-level standardization (applied whatever the
algorithm), and worker dispatch.  Returns the worker that is created and
started, or `none` when the algorithm name matches no branch. -/
noncomputable def runDispatch (table : Table) (selected_measurements_list : List Name)
    (n_neighbours : ℕ) (perplexity : ℝ) (selected_algorithm : Name)
    (standardizeFlag : Bool) (explained_variance : ℝ) (pca_components : ℕ)
    (n_components : ℕ) : Option WorkerSpec :=
  let features := selectColumns table selected_measurements_list
  let properties_to_reduce := if standardizeFlag then standardizeM features else features
  if selected_algorithm = umapTag then
    some (.umapW properties_to_reduce n_neighbours n_components)
  else if selected_algorithm = tsneTag then
    some (.tsneW properties_to_reduce perplexity n_components)
  else if selected_algorithm = pcaTag then
    some (.pcaW properties_to_reduce explained_variance pca_components)
  else none

/-- Execution of a dispatched worker on NaN-free data: what the secondary
thread computes and hands to the `returned` signal.  The external fitting
routines are parameters as before; `none` models a worker whose function
raised (for PCA, the unbound-index `NameError` path). -/
noncomputable def execWorker (ucore : ℕ → ℕ → Matrix → Matrix)
    (tcore : ℝ → ℕ → Matrix → Matrix) (fit : ℕ → Matrix → Matrix × List ℝ) :
    WorkerSpec → Option (Name × Matrix)
  | .umapW props nn nc => some (umapTag, ucore nn nc props)
  | .tsneW props p nc => some (tsneTag, tcore p nc props)
  | .pcaW props evt nc => pcaBody fit props evt nc

/-- What happens to the table once the worker finishes: the merge callback
is connected only to the worker's `returned` signal, so an errored worker
(e.g. one stopped by the NaN guard) leaves the table untouched and shows
nothing. -/
def applyOutcome {α : Type} (n_components : ℕ) (t : Table)
    (outcome : Except α (Name × Matrix)) : Table × Bool :=
  match outcome with
  | .error _ => (t, false)
  | .ok r => mergeResult n_components t r

/-! ### The click-time validation (`run_clicked`) -/

/-- The widget state read by `run_clicked`: the selected labels layer (its
tabular data), the selected measurement names, the chosen algorithm and the
parameter widgets. -/
structure WidgetState where
  labels_select : Option Table
  properties_list : List Name
  algorithm_choice : Name
  n_neighbors : ℕ
  perplexity : ℝ
  standardization : Bool
  explained_variance : ℝ
  pca_components : ℕ

/-- Outcome of a click on Run: either a warning is issued and `run` is never
called (no background task can be created), or `run` executes and dispatches
`w` (with `w = none` when no branch of `run` matches). -/
inductive ClickOutcome where
  | warned : ClickOutcome
  | ran : Option WorkerSpec → ClickOutcome

/-- The `run_clicked` handler: warn and return when no labels layer is
selected, when no measurement is selected, or when the algorithm choice is
the empty string; otherwise call `run` with `n_components = 2`. -/
noncomputable def runClicked (s : WidgetState) : ClickOutcome :=
  match s.labels_select with
  | none => .warned
  | some layerTable =>
    if s.properties_list = [] then .warned
    else if s.algorithm_choice = [] then .warned
    else .ran (runDispatch layerTable s.properties_list s.n_neighbors s.perplexity
      s.algorithm_choice s.standardization s.explained_variance s.pca_components 2)

/-! ### Worker lifecycle

The widget keeps a single reference `self.worker` (initialised to `None` in
`__init__`); every call to `run` unconditionally creates a fresh worker,
overwrites the reference and starts it, without cancelling, joining or
checking the previous one.  The lifecycle is modelled as a transition system
whose states record the overwritten reference and the multiset of workers
started but not yet finished. -/

structure OrchState where
  worker : Option ℕ
  pending : List ℕ
  merges : ℕ
  nextId : ℕ
  deriving DecidableEq

/-- The state after `__init__` (`self.worker = None`). -/
def initOrch : OrchState := ⟨none, [], 0, 0⟩

/-- One call to `run` reaching a dispatch branch: `self.worker =
create_worker(...)` followed by `self.worker.start()` — a fresh worker
starts and the reference is overwritten, unconditionally. -/
def startRun (s : OrchState) : OrchState :=
  ⟨some s.nextId, s.pending ++ [s.nextId], s.merges, s.nextId + 1⟩

/-- A pending worker finishes: its `returned` signal fires the merge
callback that was connected to it when it was created. -/
def finishRun (s : OrchState) (i : ℕ) : OrchState :=
  if i ∈ s.pending then ⟨s.worker, s.pending.erase i, s.merges + 1, s.nextId⟩ else s

/-- States the widget can actually reach. -/
inductive ReachableOrch : OrchState → Prop where
  | init : ReachableOrch initOrch
  | start {s : OrchState} : ReachableOrch s → ReachableOrch (startRun s)
  | finish {s : OrchState} (i : ℕ) : ReachableOrch s → ReachableOrch (finishRun s i)

/-! ### Lemmas about standardization -/

theorem sum_map_sub (c : List ℝ) (m : ℝ) :
    (c.map (fun x => x - m)).sum = c.sum - c.length * m := by
  induction c with
  | nil => simp
  | cons a c ih =>
    simp only [List.map_cons, List.sum_cons, List.length_cons, ih, Nat.cast_succ]
    ring

theorem sum_map_div (c : List ℝ) (f : ℝ → ℝ) (s : ℝ) :
    (c.map (fun x => f x / s)).sum = (c.map f).sum / s := by
  induction c with
  | nil => simp
  | cons a c ih => simp [ih, add_div]

theorem length_standardizeCol (c : List ℝ) : (standardizeCol c).length = c.length := by
  simp [standardizeCol]

theorem mean_standardizeCol (c : List ℝ) : mean (standardizeCol c) = 0 := by
  rcases eq_or_ne c [] with rfl | hc
  · simp [standardizeCol, mean]
  · have hn : (c.length : ℝ) ≠ 0 := by
      have hpos : 0 < c.length := List.length_pos.mpr hc
      positivity
    unfold mean standardizeCol
    rw [sum_map_div c (fun x => x - mean c) (scaleOf c), sum_map_sub]
    have h1 : (c.length : ℝ) * mean c = c.sum := by
      unfold mean; field_simp
    simp [h1]

theorem popVar_nonneg (c : List ℝ) : 0 ≤ popVar c := by
  unfold popVar
  apply div_nonneg _ (Nat.cast_nonneg _)
  apply List.sum_nonneg
  intro a ha
  obtain ⟨x, _, rfl⟩ := List.mem_map.mp ha
  positivity

theorem popVar_standardizeCol (c : List ℝ) :
    popVar (standardizeCol c) = popVar c / (scaleOf c) ^ 2 := by
  unfold popVar
  rw [mean_standardizeCol, length_standardizeCol]
  unfold standardizeCol
  rw [List.map_map]
  have h1 : ((fun y => (y - 0) ^ 2) ∘ fun x => (x - mean c) / scaleOf c) =
      fun x => ((x - mean c) ^ 2) / (scaleOf c) ^ 2 := by
    funext x
    simp [div_pow]
  rw [h1, sum_map_div c (fun x => (x - mean c) ^ 2) ((scaleOf c) ^ 2)]
  rw [div_div, div_div, mul_comm]

theorem scaleOf_standardizeCol (c : List ℝ) : scaleOf (standardizeCol c) = 1 := by
  rcases eq_or_ne (popVar c) 0 with h0 | h0
  · have hz : popVar (standardizeCol c) = 0 := by
      rw [popVar_standardizeCol, h0, zero_div]
    simp [scaleOf, popStd, hz]
  · have hpos : 0 < popVar c := lt_of_le_of_ne (popVar_nonneg c) (Ne.symm h0)
    have hstd : popStd c = Real.sqrt (popVar c) := rfl
    have hstd_pos : 0 < popStd c := by
      rw [hstd]; exact Real.sqrt_pos.mpr hpos
    have hscale : scaleOf c = popStd c := by
      simp [scaleOf, hstd_pos.ne']
    have hsq : (scaleOf c) ^ 2 = popVar c := by
      rw [hscale, hstd, Real.sq_sqrt (popVar_nonneg c)]
    have hone : popVar (standardizeCol c) = 1 := by
      rw [popVar_standardizeCol, hsq, div_self h0]
    simp [scaleOf, popStd, hone]

theorem standardizeCol_of_centered (z : List ℝ) (h1 : mean z = 0) (h2 : scaleOf z = 1) :
    standardizeCol z = z := by
  unfold standardizeCol
  rw [h1, h2]
  simp

theorem standardizeCol_idem (c : List ℝ) :
    standardizeCol (standardizeCol c) = standardizeCol c :=
  standardizeCol_of_centered _ (mean_standardizeCol c) (scaleOf_standardizeCol c)

theorem standardizeM_idem (X : Matrix) : standardizeM (standardizeM X) = standardizeM X := by
  unfold standardizeM
  rw [List.map_map]
  exact List.map_congr_left (fun c _ => standardizeCol_idem c)

theorem length_standardizeM (X : Matrix) : (standardizeM X).length = X.length := by
  simp [standardizeM]

/-- The PCA reduction gives the same answer on raw and on pre-standardized
input, because it standardizes internally and standardization is
idempotent. -/
theorem pcaBody_standardizeM (fit : ℕ → Matrix → Matrix × List ℝ) (X : Matrix)
    (thr : ℝ) (nc : ℕ) : pcaBody fit (standardizeM X) thr nc = pcaBody fit X thr nc := by
  unfold pcaBody
  rw [length_standardizeM, standardizeM_idem]

/-! ### Lemmas about column lookup, `addColumn` and the merge fold -/

theorem addColumn_of_not_mem (t : Table) (n : Name) (v : List ℝ)
    (h : ∀ c ∈ t, c.1 ≠ n) : addColumn t n v = t ++ [(n, v)] := by
  unfold addColumn
  rw [if_neg]
  simp only [List.any_eq_true, decide_eq_true_eq, not_exists, not_and]
  exact h

theorem lookupCol_append_single (t : Table) (n : Name) (v : List ℝ)
    (h : ∀ c ∈ t, c.1 ≠ n) : lookupCol n (t ++ [(n, v)]) = some v := by
  induction t with
  | nil => simp [lookupCol]
  | cons c t ih =>
    have hc := h c (by simp)
    simp only [List.cons_append, lookupCol, if_neg hc]
    exact ih (fun d hd => h d (by simp [hd]))

theorem lookupCol_append_single_ne (t : Table) (n n' : Name) (v : List ℝ)
    (h : n' ≠ n) : lookupCol n' (t ++ [(n, v)]) = lookupCol n' t := by
  induction t with
  | nil => simp [lookupCol, Ne.symm h]
  | cons c t ih =>
    by_cases hc : c.1 = n'
    · simp [lookupCol, hc]
    · simp [lookupCol, hc, ih]

theorem lookupCol_map_replace_self (t : Table) (n : Name) (v : List ℝ)
    (h : ∃ c ∈ t, c.1 = n) :
    lookupCol n (t.map (fun c => if c.1 = n then (n, v) else c)) = some v := by
  induction t with
  | nil => simp at h
  | cons c t ih =>
    by_cases hc : c.1 = n
    · simp [lookupCol, hc]
    · obtain ⟨d, hd, hdn⟩ := h
      rcases List.mem_cons.mp hd with rfl | hd'
      · exact absurd hdn hc
      · simp only [List.map_cons, if_neg hc, lookupCol, if_neg hc]
        exact ih ⟨d, hd', hdn⟩

theorem lookupCol_map_replace_ne (t : Table) (n n' : Name) (v : List ℝ)
    (h : n' ≠ n) :
    lookupCol n' (t.map (fun c => if c.1 = n then (n, v) else c)) = lookupCol n' t := by
  induction t with
  | nil => simp [lookupCol]
  | cons c t ih =>
    by_cases hc : c.1 = n
    · simp only [List.map_cons, if_pos hc, lookupCol, if_neg (Ne.symm h),
        if_neg (hc ▸ Ne.symm h : ¬ c.1 = n')]
      exact ih
    · simp only [List.map_cons, if_neg hc, lookupCol]
      by_cases hc' : c.1 = n'
      · simp [hc']
      · simp [hc', ih]

theorem lookupCol_addColumn_self (t : Table) (n : Name) (v : List ℝ) :
    lookupCol n (addColumn t n v) = some v := by
  unfold addColumn
  by_cases h : t.any (fun c => c.1 = n) = true
  · rw [if_pos h]
    apply lookupCol_map_replace_self
    simpa using h
  · rw [if_neg h]
    apply lookupCol_append_single
    intro c hc
    simp only [List.any_eq_true, decide_eq_true_eq, not_exists, not_and] at h
    exact h c hc

theorem lookupCol_addColumn_ne (t : Table) (n n' : Name) (v : List ℝ) (h : n' ≠ n) :
    lookupCol n' (addColumn t n v) = lookupCol n' t := by
  unfold addColumn
  by_cases hc : t.any (fun c => c.1 = n) = true
  · rw [if_pos hc]
    exact lookupCol_map_replace_ne t n n' v h
  · rw [if_neg hc]
    exact lookupCol_append_single_ne t n n' v h

theorem lookupCol_foldl_addColumn (names : ℕ → Name) (vals : ℕ → List ℝ)
    (inj : ∀ i j, names i = names j → i = j) (t : Table) (m i : ℕ) (h : i < m) :
    lookupCol (names i)
      (List.foldl (fun acc j => addColumn acc (names j) (vals j)) t (List.range m)) =
      some (vals i) := by
  induction m with
  | zero => omega
  | succ m ih =>
    rw [List.range_succ, List.foldl_append]
    simp only [List.foldl_cons, List.foldl_nil]
    rcases Nat.lt_succ_iff_lt_or_eq.mp h with h' | rfl
    · rw [lookupCol_addColumn_ne _ _ _ _
        (fun he => absurd (inj i m he) (Nat.ne_of_lt h'))]
      exact ih h'
    · exact lookupCol_addColumn_self _ _ _

theorem foldl_addColumn_eq_append (names : ℕ → Name) (vals : ℕ → List ℝ)
    (inj : ∀ i j, names i = names j → i = j) (t : Table) (m : ℕ)
    (fresh : ∀ i, ∀ c ∈ t, c.1 ≠ names i) :
    List.foldl (fun acc j => addColumn acc (names j) (vals j)) t (List.range m) =
      t ++ (List.range m).map (fun i => (names i, vals i)) := by
  induction m with
  | zero => simp
  | succ m ih =>
    rw [List.range_succ, List.foldl_append, ih]
    simp only [List.foldl_cons, List.foldl_nil]
    rw [addColumn_of_not_mem]
    · simp [List.append_assoc]
    · intro c hc
      rcases List.mem_append.mp hc with h1 | h2
      · exact fresh m c h1
      · obtain ⟨j, hj, rfl⟩ := List.mem_map.mp h2
        intro he
        exact absurd (inj j m he) (Nat.ne_of_lt (List.mem_range.mp hj))

/-! ### Lemmas about the PCA column names and their removal -/

theorem pcMark_isPrefixOf_pcName (i : ℕ) : pcMark.isPrefixOf (pcName i) = true :=
  isPrefixOf_append_self pcMark (Nat.toDigits 10 i)

theorem pcName_injective {i j : ℕ} (h : pcName i = pcName j) : i = j :=
  toDigits_injective (List.append_cancel_left h)

theorem algColName_injective (tag : Name) {i j : ℕ}
    (h : algColName tag i = algColName tag j) : i = j := by
  have h1 := List.append_cancel_left h
  exact toDigits_injective (List.cons.injEq _ _ _ _ ▸ h1 |>.2)

theorem dropPCColumns_append (t₁ t₂ : Table) :
    dropPCColumns (t₁ ++ t₂) = dropPCColumns t₁ ++ dropPCColumns t₂ := by
  simp [dropPCColumns, List.filter_append]

theorem dropPCColumns_idem (t : Table) :
    dropPCColumns (dropPCColumns t) = dropPCColumns t := by
  unfold dropPCColumns
  rw [List.filter_filter]
  simp

theorem dropPCColumns_pc_block (m : ℕ) (vals : ℕ → List ℝ) :
    dropPCColumns ((List.range m).map (fun i => (pcName i, vals i))) = [] := by
  unfold dropPCColumns
  rw [List.filter_eq_nil_iff]
  intro c hc
  obtain ⟨i, _, rfl⟩ := List.mem_map.mp hc
  simp [pcMark_isPrefixOf_pcName]

theorem dropPCColumns_key_ne_pcName (t : Table) (c : Name × List ℝ)
    (hc : c ∈ dropPCColumns t) (i : ℕ) : c.1 ≠ pcName i := by
  intro he
  have h1 := List.of_mem_filter hc
  rw [he] at h1
  simp [pcMark_isPrefixOf_pcName] at h1

/-! ### Lemmas about `firstIdxGe` -/

theorem firstIdxGe_eq_some (t : ℝ) (l : List ℝ) (i : ℕ)
    (h : firstIdxGe t l = some i) :
    i < l.length ∧ t ≤ l.getD i 0 ∧ ∀ j < i, l.getD j 0 < t := by
  induction l generalizing i with
  | nil => simp [firstIdxGe] at h
  | cons x xs ih =>
    unfold firstIdxGe at h
    by_cases hx : t ≤ x
    · rw [if_pos hx] at h
      obtain rfl : (0 : ℕ) = i := Option.some.inj h
      refine ⟨by simp, by simpa using hx, by omega⟩
    · rw [if_neg hx] at h
      cases hfi : firstIdxGe t xs with
      | none => rw [hfi] at h; simp at h
      | some i' =>
        rw [hfi] at h
        simp only [Option.map_some'] at h
        obtain rfl : i' + 1 = i := Option.some.inj h
        obtain ⟨h1, h2, h3⟩ := ih i' hfi
        refine ⟨by simpa using h1, by simpa using h2, ?_⟩
        intro j hj
        cases j with
        | zero => simpa using lt_of_not_le hx
        | succ j' => simpa using h3 j' (by omega)

theorem firstIdxGe_isSome (t : ℝ) (l : List ℝ) (j : ℕ) (hj : j < l.length)
    (h : t ≤ l.getD j 0) : (firstIdxGe t l).isSome := by
  induction l generalizing j with
  | nil => simp at hj
  | cons x xs ih =>
    unfold firstIdxGe
    by_cases hx : t ≤ x
    · simp [if_pos hx]
    · rw [if_neg hx]
      cases j with
      | zero => simp at h; exact absurd h hx
      | succ j' =>
        have := ih j' (by simpa using hj) (by simpa using h)
        simpa using this

/-- Core computation of a PCA merge: the merged table is the old table
stripped of all `PC_*` columns, followed by the freshly named block
`PC_0 .. PC_{m-1}` holding the new result's columns. -/
theorem mergeResult_pca_eq (n : ℕ) (t : Table) (M : Matrix) :
    (mergeResult n t (pcaTag, M)).1 =
      dropPCColumns t ++ (List.range M.length).map (fun i => (pcName i, M.getD i [])) := by
  simp only [mergeResult, if_pos rfl]
  exact foldl_addColumn_eq_append pcName (fun i => M.getD i [])
    (fun _ _ => pcName_injective) (dropPCColumns t) M.length
    (fun i c hc => dropPCColumns_key_ne_pcName t c hc i)

/-- C5: after the merge step of a PCA run, the table is the old table with
every `PC_`-prefixed column removed followed by exactly the columns
`PC_0 .. PC_{m-1}` of the new `m`-column result; the `PC_`-prefixed columns
of the merged table are exactly that new block; and merging a second PCA
result on top gives the same table as merging it directly, so repeated runs
never accumulate stale `PC_*` columns. -/
theorem pca_merge_unique_pc_columns (t : Table) (M M₂ : Matrix) (n : ℕ) :
    (mergeResult n t (pcaTag, M)).1 =
      dropPCColumns t ++ (List.range M.length).map (fun i => (pcName i, M.getD i [])) ∧
    ((mergeResult n t (pcaTag, M)).1).filter (fun c => pcMark.isPrefixOf c.1) =
      (List.range M.length).map (fun i => (pcName i, M.getD i [])) ∧
    (mergeResult n (mergeResult n t (pcaTag, M)).1 (pcaTag, M₂)).1 =
      (mergeResult n t (pcaTag, M₂)).1 := by
  refine ⟨mergeResult_pca_eq n t M, ?_, ?_⟩
  · rw [mergeResult_pca_eq, List.filter_append]
    have h1 : (dropPCColumns t).filter (fun c => pcMark.isPrefixOf c.1) = [] := by
      rw [List.filter_eq_nil_iff]
      intro c hc
      have h2 := List.of_mem_filter hc
      simp only [decide_eq_true_eq] at h2 ⊢
      exact h2
    have h2 : ((List.range M.length).map
        (fun i => (pcName i, M.getD i []))).filter (fun c => pcMark.isPrefixOf c.1) =
        (List.range M.length).map (fun i => (pcName i, M.getD i [])) := by
      rw [List.filter_eq_self]
      intro c hc
      obtain ⟨i, _, rfl⟩ := List.mem_map.mp hc
      simp [pcMark_isPrefixOf_pcName]
    rw [h1, h2, List.nil_append]
  · rw [mergeResult_pca_eq, mergeResult_pca_eq, mergeResult_pca_eq,
      dropPCColumns_append, dropPCColumns_idem, dropPCColumns_pc_block,
      List.append_nil]

/-- C7: when no labels layer is selected, no measurement is selected, or the
algorithm choice is empty, `run_clicked` only issues a warning and returns:
`run` is never entered, no worker is created and the table is untouched. -/
theorem run_clicked_validation (s : WidgetState)
    (h : s.labels_select = none ∨ s.properties_list = [] ∨ s.algorithm_choice = []) :
    runClicked s = .warned := by
  unfold runClicked
  rcases h with h | h | h
  · rw [h]
  · cases hl : s.labels_select with
    | none => rfl
    | some layerTable => simp [h]
  · cases hl : s.labels_select with
    | none => rfl
    | some layerTable => by_cases hp : s.properties_list = [] <;> simp [h, hp]

theorem run_clicked_validation_witness :
    runClicked ⟨none, [], [], 15, 30, true, 95, 0⟩ = .warned :=
  run_clicked_validation ⟨none, [], [], 15, 30, true, 95, 0⟩ (Or.inl rfl)

/-- C10: an algorithm name matching none of `"UMAP"`, `"t-SNE"`, `"PCA"`
makes `run` dispatch no worker at all, and a result tagged with such a name
makes the merge callback return silently: no column is written and
`show_table` is not called. -/
theorem unknown_algorithm_silent_noop (table : Table) (sel : List Name) (nn : ℕ)
    (p : ℝ) (alg : Name) (flag : Bool) (ev : ℝ) (pc nc : ℕ) (t : Table) (M : Matrix)
    (h1 : alg ≠ umapTag) (h2 : alg ≠ tsneTag) (h3 : alg ≠ pcaTag) :
    runDispatch table sel nn p alg flag ev pc nc = none ∧
      mergeResult nc t (alg, M) = (t, false) := by
  constructor
  · simp [runDispatch, h1, h2, h3]
  · simp [mergeResult, h1, h2, h3]

theorem unknown_algorithm_silent_noop_witness :
    runDispatch [] [] 15 30 ['f', 'o', 'o'] false 95 0 2 = none ∧
      mergeResult 2 [] (['f', 'o', 'o'], []) = ([], false) :=
  unknown_algorithm_silent_noop [] [] 15 30 ['f', 'o', 'o'] false 95 0 2 [] []
    (by decide) (by decide) (by decide)

/-- In a zero-variance column every value equals the mean. -/
theorem eq_mean_of_popVar_zero (c : List ℝ) (h : popVar c = 0) :
    ∀ x ∈ c, x = mean c := by
  intro x hx
  have hne : c ≠ [] := by rintro rfl; simp at hx
  have hn : (0 : ℝ) < c.length := by
    have hpos : 0 < c.length := List.length_pos.mpr hne
    positivity
  unfold popVar at h
  rw [div_eq_zero_iff] at h
  rcases h with h | h
  · have hmem : (x - mean c) ^ 2 ∈ c.map (fun y => (y - mean c) ^ 2) :=
      List.mem_map_of_mem _ hx
    have hz : (x - mean c) ^ 2 = 0 :=
      List.all_zero_of_le_zero_le_of_sum_eq_zero
        (fun a ha => by
          obtain ⟨y, _, rfl⟩ := List.mem_map.mp ha
          positivity) h hmem
    have := pow_eq_zero_iff (two_ne_zero) |>.mp hz
    linarith [this]
  · exact absurd h hn.ne'

/-- C8: standardization — each column is rescaled with its own population
statistics: on the columns `[0,0]` and `[0,2]` the second column becomes
`[-1, 1]`, and the zero-variance first column comes out as zeros through the
safe fallback scale of 1 instead of a division by zero; in general a
zero-variance column standardizes to all zeros. -/
theorem standardize_population_and_fallback :
    standardizeM [[0, 0], [0, 2]] = [[0, 0], [-1, 1]] ∧
    ∀ c : List ℝ, popVar c = 0 → standardizeCol c = List.replicate c.length 0 := by
  constructor
  · have hm1 : mean [(0 : ℝ), 0] = 0 := by
      norm_num [mean]
    have hv1 : popVar [(0 : ℝ), 0] = 0 := by
      norm_num [popVar, hm1]
    have hs1 : scaleOf [(0 : ℝ), 0] = 1 := by
      simp [scaleOf, popStd, hv1]
    have hm2 : mean [(0 : ℝ), 2] = 1 := by
      norm_num [mean]
    have hv2 : popVar [(0 : ℝ), 2] = 1 := by
      norm_num [popVar, hm2]
    have hs2 : scaleOf [(0 : ℝ), 2] = 1 := by
      simp [scaleOf, popStd, hv2]
    simp [standardizeM, standardizeCol, hm1, hs1, hm2, hs2]
    norm_num
  · intro c hc
    rw [List.eq_replicate_iff]
    refine ⟨length_standardizeCol c, ?_⟩
    intro b hb
    obtain ⟨x, hx, rfl⟩ := List.mem_map.mp hb
    rw [eq_mean_of_popVar_zero c hc x hx]
    simp

theorem standardize_population_and_fallback_witness :
    popVar [(5 : ℝ), 5] = 0 ∧
      standardizeCol [(5 : ℝ), 5] = List.replicate ([(5 : ℝ), 5]).length 0 := by
  have h : popVar [(5 : ℝ), 5] = 0 := by
    norm_num [popVar, mean]
  exact ⟨h, standardize_population_and_fallback.2 [(5 : ℝ), 5] h⟩

/-- C4: a feature matrix containing a NaN makes all three reduction
functions fail with the validation error of the NaN guard — whatever the
underlying fitting routines are, so the reduction algorithm itself is never
consulted — and an errored worker never fires the merge callback, leaving
the measurement table unchanged and showing nothing. -/
theorem nan_input_fails_uniformly (X : OptMatrix) (h : hasNaN X = true) :
    (∀ (ucore : ℕ → ℕ → Matrix → Matrix) (nn nc : ℕ),
      umap ucore X nn nc = .error .validationError) ∧
    (∀ (tcore : ℝ → ℕ → Matrix → Matrix) (p : ℝ) (nc : ℕ),
      tsne tcore X p nc = .error .validationError) ∧
    (∀ (fit : ℕ → Matrix → Matrix × List ℝ) (thr : ℝ) (nc : ℕ),
      pca fit X thr nc = .error .validationError) ∧
    (∀ (α : Type) (nc : ℕ) (t : Table) (e : α),
      applyOutcome nc t (Except.error e) = (t, false)) := by
  refine ⟨?_, ?_, ?_, ?_⟩ <;> intros <;>
    simp [umap, tsne, pca, catchNaNs, h, applyOutcome]

theorem nan_input_fails_uniformly_witness :
    hasNaN [[some 1, none]] = true ∧
      umap (fun _ _ M => M) [[some 1, none]] 15 2 = .error .validationError :=
  ⟨rfl, (nan_input_fails_uniformly [[some 1, none]] rfl).1 (fun _ _ M => M) 15 2⟩

/-- C9: the widget does not serialize reduction runs.  A call to `run`
always starts a fresh worker and only overwrites the `worker` reference,
never cancelling or awaiting the pending one, so a state with two workers
in flight is reachable — the claimed invariant "at most one reduction run
is ever in flight" is false of the code. -/
theorem run_does_not_serialize_workers :
    (∀ s : OrchState,
      (startRun s).pending = s.pending ++ [s.nextId] ∧
        (startRun s).worker = some s.nextId) ∧
    ¬ (∀ s : OrchState, ReachableOrch s → s.pending.length ≤ 1) := by
  constructor
  · intro s
    exact ⟨rfl, rfl⟩
  · intro h
    have h2 : ReachableOrch (startRun (startRun initOrch)) :=
      .start (.start .init)
    have h3 := h _ h2
    simp [startRun, initOrch] at h3

/-- Standardizing the column `[0, 2]` gives `[-1, 1]`. -/
theorem standardizeCol_zero_two : standardizeCol [(0 : ℝ), 2] = [-1, 1] := by
  have hm : mean [(0 : ℝ), 2] = 1 := by norm_num [mean]
  have hv : popVar [(0 : ℝ), 2] = 1 := by norm_num [popVar, hm]
  have hs : scaleOf [(0 : ℝ), 2] = 1 := by simp [scaleOf, popStd, hv]
  simp [standardizeCol, hm, hs]
  norm_num

/-- C3 counterexample: with algorithm PCA, the top-level standardize flag
does change the input handed to the dispatched PCA worker — `run` scales
`properties_to_reduce` before dispatch for every algorithm, so the flag
does not "only change the input of UMAP and t-SNE runs" and the two flag
values do not pass the same input to the PCA reduction. -/
theorem standardize_flag_changes_pca_input :
    runDispatch [(['a'], [0, 2])] [['a']] 15 30 pcaTag true 95 0 2 ≠
      runDispatch [(['a'], [0, 2])] [['a']] 15 30 pcaTag false 95 0 2 := by
  have hpu : pcaTag ≠ umapTag := by decide
  have hpt : pcaTag ≠ tsneTag := by decide
  have h1 : selectColumns [(['a'], [0, 2])] [['a']] = [[0, 2]] := by
    simp [selectColumns, lookupCol]
  have e1 : runDispatch [(['a'], [0, 2])] [['a']] 15 30 pcaTag true 95 0 2 =
      some (.pcaW [[-1, 1]] 95 0) := by
    simp [runDispatch, h1, hpu, hpt, standardizeM, standardizeCol_zero_two]
  have e2 : runDispatch [(['a'], [0, 2])] [['a']] 15 30 pcaTag false 95 0 2 =
      some (.pcaW [[0, 2]] 95 0) := by
    simp [runDispatch, h1, hpu, hpt]
  rw [e1, e2]
  intro h
  simp only [Option.some.injEq, WorkerSpec.pcaW.injEq] at h
  have := h.1
  simp only [List.cons.injEq] at this
  have := this.1.1
  norm_num at this

/-- C3 amended: the flag changes the input matrix handed to the PCA worker,
but not the PCA embedding — the reduction standardizes internally and
standardization is idempotent, so running with the flag on or off yields
the same worker result for PCA. -/
theorem pca_result_independent_of_standardize_flag (table : Table)
    (sel : List Name) (nn : ℕ) (p ev : ℝ) (pc nc : ℕ)
    (ucore : ℕ → ℕ → Matrix → Matrix) (tcore : ℝ → ℕ → Matrix → Matrix)
    (fit : ℕ → Matrix → Matrix × List ℝ) :
    (runDispatch table sel nn p pcaTag true ev pc nc).map (execWorker ucore tcore fit) =
      (runDispatch table sel nn p pcaTag false ev pc nc).map (execWorker ucore tcore fit) := by
  have hpu : pcaTag ≠ umapTag := by decide
  have hpt : pcaTag ≠ tsneTag := by decide
  simp only [runDispatch, if_neg hpu, if_neg hpt, if_pos rfl, if_true,
    Bool.false_eq_true, if_false, Option.map_some']
  simp [execWorker, pcaBody_standardizeM]

/-- An example stand-in for the external sklearn PCA decomposition: a
two-component fit with explained-variance ratios 0.9 and 0.1. -/
noncomputable def fitEx : ℕ → Matrix → Matrix × List ℝ :=
  fun _ _ => ([[1], [2]], [9 / 10, 1 / 10])

/-- An example two-column, one-row feature matrix. -/
def XEx : Matrix := [[0], [0]]

/-- C1 counterexample: with threshold 50 and the decomposition `fitEx`
(ratios 0.9, 0.1), `pca` with `n_components = 3 > 2` columns returns both
components, while `n_components = 0` returns only the one-component prefix
that reaches the threshold — the two settings are not treated
identically. -/
theorem pca_overlarge_ncomponents_not_truncated :
    pcaBody fitEx XEx 50 3 = some (pcaTag, [[1], [2]]) ∧
      pcaBody fitEx XEx 50 0 = some (pcaTag, [[1]]) ∧
      pcaBody fitEx XEx 50 3 ≠ pcaBody fitEx XEx 50 0 := by
  have h1 : pcaBody fitEx XEx 50 3 = some (pcaTag, [[1], [2]]) := by
    simp [pcaBody, fitEx]
  have h2 : pcaBody fitEx XEx 50 0 = some (pcaTag, [[1]]) := by
    have hc : (50 : ℝ) / 100 ≤ 9 / 10 := by norm_num
    simp [pcaBody, fitEx, List.range_succ, firstIdxGe, hc]
  refine ⟨h1, h2, ?_⟩
  rw [h1, h2]
  intro h
  simp at h

/-- C1 amended: `n_components` exceeding the number of input columns does,
like `n_components == 0`, compute the full decomposition (`PCA()` with no
component limit), but the threshold-prefix selection is applied only in the
`n_components == 0` case: with an overlarge `n_components` every component
of the full decomposition is returned. -/
theorem pca_overlarge_ncomponents_full_decomposition
    (fit : ℕ → Matrix → Matrix × List ℝ) (X : Matrix) (thr : ℝ) (nc : ℕ)
    (h : X.length < nc) :
    pcaBody fit X thr nc = some (pcaTag, (fit 0 (standardizeM X)).1) := by
  have hnc : nc ≠ 0 := by omega
  simp only [pcaBody, if_pos (Or.inr h), if_neg hnc]

theorem pca_overlarge_ncomponents_full_decomposition_witness :
    XEx.length < 3 ∧
      pcaBody fitEx XEx 50 3 = some (pcaTag, (fitEx 0 (standardizeM XEx)).1) :=
  ⟨by decide, pca_overlarge_ncomponents_full_decomposition fitEx XEx 50 3 (by decide)⟩

/-- C2: `pca` with `n_components == 0` keeps the shortest prefix of the
decomposition's components (scanned in the natural order the decomposition
produces) whose cumulative explained-variance ratio reaches
`threshold / 100`: the returned prefix meets the threshold and the prefix
one component shorter does not. -/
theorem pca_auto_minimal_prefix (fit : ℕ → Matrix → Matrix × List ℝ) (X : Matrix)
    (thr : ℝ) (T : Matrix) (ev : List ℝ)
    (hfit : fit 0 (standardizeM X) = (T, ev))
    (h1 : 1 ≤ thr) (h2 : thr ≤ 100) (hev : ev.sum = 1) :
    ∃ i : ℕ, pcaBody fit X thr 0 = some (pcaTag, T.take (i + 1)) ∧
      thr / 100 ≤ (ev.take (i + 1)).sum ∧ (ev.take i).sum < thr / 100 := by
  have hsum : thr / 100 ≤ ev.sum := by rw [hev]; linarith
  have hthr : 0 < thr / 100 := by positivity
  have hne : ev ≠ [] := by
    rintro rfl
    simp at hsum
    linarith
  have hnpos : 0 < ev.length := List.length_pos.mpr hne
  set cumul := (List.range ev.length).map (fun i => (ev.take (i + 1)).sum) with hcum
  have hlen : cumul.length = ev.length := by simp [hcum]
  have hgetD : ∀ j < ev.length, cumul.getD j 0 = (ev.take (j + 1)).sum := by
    intro j hj
    rw [hcum, List.getD_eq_getElem?_getD, List.getElem?_eq_getElem (by simpa using hj)]
    simp
  have hlast : thr / 100 ≤ cumul.getD (ev.length - 1) 0 := by
    rw [hgetD (ev.length - 1) (by omega)]
    have he : ev.length - 1 + 1 = ev.length := by omega
    rw [he, List.take_length]
    exact hsum
  have hsome := firstIdxGe_isSome (thr / 100) cumul (ev.length - 1)
    (by rw [hlen]; omega) hlast
  obtain ⟨i, hi⟩ := Option.isSome_iff_exists.mp hsome
  obtain ⟨hilt, hige, himin⟩ := firstIdxGe_eq_some _ _ _ hi
  rw [hlen] at hilt
  refine ⟨i, ?_, ?_, ?_⟩
  · simp only [pcaBody, eq_self_iff_true, true_or, if_true, ite_self, ite_true]
    simp only [hfit]
    rw [← hcum, hi]
  · rw [hgetD i hilt] at hige
    exact hige
  · cases i with
    | zero => simpa using hthr
    | succ i' =>
      have hj := himin i' (Nat.lt_succ_self i')
      rw [hgetD i' (by omega)] at hj
      exact hj

theorem pca_auto_minimal_prefix_witness :
    (1 : ℝ) ≤ 95 ∧ (95 : ℝ) ≤ 100 ∧ ([9 / 10, 1 / 10] : List ℝ).sum = 1 ∧
      ∃ i : ℕ, pcaBody fitEx XEx 95 0 = some (pcaTag, ([[1], [2]] : Matrix).take (i + 1)) ∧
        (95 : ℝ) / 100 ≤ (([9 / 10, 1 / 10] : List ℝ).take (i + 1)).sum ∧
        (([9 / 10, 1 / 10] : List ℝ).take i).sum < 95 / 100 :=
  ⟨by norm_num, by norm_num, by norm_num,
    pca_auto_minimal_prefix fitEx XEx 95 [[1], [2]] [9 / 10, 1 / 10] rfl
      (by norm_num) (by norm_num) (by norm_num)⟩

/-- C6: on valid input, (a) a UMAP / t-SNE result with `n_components`
columns of `r` rows each is merged as columns `UMAP_i` / `t-SNE_i`,
`i = 0 .. n_components - 1`, each holding the corresponding result column
of `r` rows, and (b) `pca` with `0 < k ≤` number of input columns returns
an embedding of exactly `k` columns. -/
theorem reduction_output_shape :
    (∀ (t : Table) (tag : Name) (M : Matrix) (nc r : ℕ),
      tag = umapTag ∨ tag = tsneTag → M.length = nc → (∀ c ∈ M, c.length = r) →
      ∀ i < nc, lookupCol (algColName tag i) (mergeResult nc t (tag, M)).1 =
          some (M.getD i []) ∧ (M.getD i []).length = r) ∧
    (∀ (fit : ℕ → Matrix → Matrix × List ℝ) (X : Matrix) (thr : ℝ) (k : ℕ),
      0 < k → k ≤ X.length → ((fit k (standardizeM X)).1).length = k →
      ∃ M, pcaBody fit X thr k = some (pcaTag, M) ∧ M.length = k) := by
  constructor
  · intro t tag M nc r htag hM hr i hi
    have hne : tag ≠ pcaTag := by
      rcases htag with rfl | rfl <;> decide
    have hmerge : (mergeResult nc t (tag, M)).1 =
        (List.range nc).foldl
          (fun acc j => addColumn acc (algColName tag j) (M.getD j [])) t := by
      simp [mergeResult, hne, htag]
    constructor
    · rw [hmerge]
      exact lookupCol_foldl_addColumn (algColName tag) (fun j => M.getD j [])
        (fun _ _ h => algColName_injective tag h) t nc i hi
    · have hi' : i < M.length := hM ▸ hi
      rw [List.getD_eq_getElem?_getD, List.getElem?_eq_getElem hi']
      exact hr _ (List.getElem_mem hi')
  · intro fit X thr k hk hkle hfit
    have hcond : ¬ (k = 0 ∨ X.length < k) := by omega
    refine ⟨(fit k (standardizeM X)).1, ?_, hfit⟩
    simp only [pcaBody, if_neg hcond, if_neg (by omega : ¬ k = 0)]

theorem reduction_output_shape_witness :
    (lookupCol (algColName umapTag 0) (mergeResult 2 [] (umapTag, [[5, 6], [7, 8]])).1 =
        some ([5, 6] : List ℝ) ∧ (([[5, 6], [7, 8]] : Matrix).getD 0 []).length = 2) ∧
      ∃ M, pcaBody fitEx XEx 95 2 = some (pcaTag, M) ∧ M.length = 2 := by
  constructor
  · have h := reduction_output_shape.1 [] umapTag [[5, 6], [7, 8]] 2 2
      (Or.inl rfl) rfl
      (by intro c hc; simp at hc; rcases hc with rfl | rfl <;> rfl)
      0 (by omega)
    simpa using h
  · exact reduction_output_shape.2 fitEx XEx 95 2 (by omega) (by decide) rfl

end NCP
